import Mathlib

/-!
# Verification of `simple_async_server.py`

A shallow embedding of the mutator-task and datastore logic of the
pymodbus-based async Modbus TCP server in `src/simple_async_server.py`,
together with proofs of the specified properties.

Modelling conventions:
* A register bank (`ModbusSequentialDataBlock` starting at address 0, with
  `zero_mode=True`) is a `List Nat`; `getValues block address count` is the
  Python slice `block[address : address + count]` and
  `setValues block address values` is the slice assignment
  `block[address : address + len(values)] = values`.
* Python 16-bit masking `& 0xFFFF` is `&&& 0xFFFF` on `Nat`.
* A task cycle body that can raise a Python exception is a function into
  `Except String`; the `try/except Exception` wrapper of each task loop is
  `taskStep`, which catches any error and leaves the state unchanged
  (the handler only logs).
-/

namespace ModbusServer

/-- `NUM_REGS = 50` (src line 13). -/
def NUM_REGS : Nat := 50

/-- `HOST = "0.0.0.0"` (src line 14). -/
def HOST : String := "0.0.0.0"

/-- `PORT = 5020` (src line 15). -/
def PORT : Nat := 5020

/-- `ModbusSequentialDataBlock.getValues`: the Python slice
`block[address : address + count]` (block based at address 0, `zero_mode=True`). -/
def getValues (block : List Nat) (address count : Nat) : List Nat :=
  (block.drop address).take count

/-- `ModbusSequentialDataBlock.setValues`: the Python slice assignment
`block[address : address + len(values)] = values`. -/
def setValues (block : List Nat) (address : Nat) (values : List Nat) : List Nat :=
  block.take address ++ values ++ block.drop (address + values.length)

/-- The four register banks of the single `ModbusSlaveContext`. -/
structure SlaveContext where
  di : List Nat
  co : List Nat
  hr : List Nat
  ir : List Nat

/-- `build_datastore` (src lines 17-39): 50 cells per bank;
discrete inputs and coils all 0, holding register `i` holds `i`,
input register `i` holds `1000 + i`. -/
def build_datastore : SlaveContext :=
  { di := List.replicate NUM_REGS 0
    co := List.replicate NUM_REGS 0
    hr := List.range NUM_REGS
    ir := (List.range NUM_REGS).map (fun i => 1000 + i) }

/-- The arguments `main` passes to `StartAsyncTcpServer` (src lines 118-126). -/
structure ServerConfig where
  host : String
  port : Nat
  allow_reuse_address : Bool

/-- The server configuration built in `main`: `host=HOST, port=PORT,
allow_reuse_address=True`. -/
def mainServerConfig : ServerConfig :=
  { host := HOST, port := PORT, allow_reuse_address := true }

end ModbusServer

namespace ModbusServer

/-- The per-coil toggle of `coils_task` (src line 72):
`0 if new_coils[idx] else 1` under Python truthiness — a cell holding 0
becomes 1, a cell holding any non-zero value becomes 0. -/
def toggle (v : Nat) : Nat := if v = 0 then 1 else 0

/-- One cycle of the loop body of `coils_task` (src lines 64-81), as a
fallible computation: read coils 0-9, toggle coil `toggle_index % 10`
(`new_coils[idx] = 0 if new_coils[idx] else 1`), write the block back.
The Python list indexing `new_coils[idx]` raises `IndexError` when `idx`
is out of range of the read result, which the model surfaces as `.error`. -/
def coilsCycleBodyE (toggle_index : Nat) (co : List Nat) :
    Except String (List Nat) :=
  let rr := getValues co 0 10
  let idx := toggle_index % 10
  if h : idx < rr.length then
    let new_coils := rr.set idx (toggle (rr.get ⟨idx, h⟩))
    .ok (setValues co 0 new_coils)
  else
    .error "IndexError"

/-- The `try/except Exception` wrapper shared by both task loops
(src lines 64, 82-83 and 96, 108-109): run the cycle body; on any
exception, log it and keep the state unchanged. -/
def taskStep {σ ε : Type} (body : σ → Except ε σ) (s : σ) : σ :=
  match body s with
  | .ok s2 => s2
  | .error _ => s

/-- One observed cycle of `coils_task` with toggle counter `n`. -/
def coilsTaskStep (n : Nat) (co : List Nat) : List Nat :=
  taskStep (coilsCycleBodyE n) co

/-- `k` consecutive cycles of `coils_task` starting from toggle counter `n`
(the counter increments once per successful... once per cycle body run;
on an error cycle `toggle_index += 1` is skipped in the source, but an
error cycle also leaves the coils unchanged, so the run is indexed by the
counter value at its first cycle). -/
def coilsRun (n k : Nat) (co : List Nat) : List Nat :=
  match k with
  | 0 => co
  | k + 1 => coilsRun (n + 1) k (coilsTaskStep n co)

/-- One cycle of the loop body of `holding_registers_task`
(src lines 96-107), recording the store write it performs (if any):
read holding registers 0-9; if the result is non-empty, replace element 0
by `(hr_vals[0] + 1) & 0xFFFF` and write the block back at address 0. -/
def hrCycleW (hr : List Nat) : List Nat × Option (Nat × List Nat) :=
  let hr_vals := getValues hr 0 10
  match hr_vals with
  | [] => (hr, none)
  | v :: rest =>
    let newvals := ((v + 1) &&& 0xFFFF) :: rest
    (setValues hr 0 newvals, some (0, newvals))

/-- An atomic operation on one register bank, as issued by the mutator
tasks and connection handlers.  Under asyncio's cooperative scheduling the
synchronous `getValues`/`setValues` calls (e.g. src lines 66, 75) contain
no `await`, so each call is one indivisible step of the interleaving. -/
inductive StoreOp where
  | write (values : List Nat)
  | read
deriving DecidableEq

/-- Run an interleaved trace of atomic store operations on the coils bank
range `[0, 10)`: returns the final bank state and the list of the results
of the `read` operations, in trace order. -/
def runTrace (st : List Nat) : List StoreOp → List Nat × List (List Nat)
  | [] => (st, [])
  | StoreOp.write vs :: rest => runTrace (setValues st 0 vs) rest
  | StoreOp.read :: rest =>
    let r := runTrace st rest
    (r.1, getValues st 0 10 :: r.2)

/-- The number of cycles among `toggle_index = n, n+1, ..., n+k-1` whose
toggled coil index `toggle_index % 10` equals `i`. -/
def hits (n k i : Nat) : Nat :=
  (List.range k).countP (fun j => (n + j) % 10 == i)

end ModbusServer

namespace ModbusServer

/-! ## Helper lemmas -/

lemma getD_set_self (l : List Nat) (i x d : Nat) (h : i < l.length) :
    (l.set i x).getD i d = x := by
  simp [List.getD_eq_getElem?_getD, List.getElem?_set_self h]

lemma getD_set_ne (l : List Nat) (i j x d : Nat) (hne : i ≠ j) :
    (l.set i x).getD j d = l.getD j d := by
  simp [List.getD_eq_getElem?_getD, List.getElem?_set_ne hne]

lemma getValues_zero (l : List Nat) (c : Nat) : getValues l 0 c = l.take c := by
  simp [getValues]

lemma setValues_zero (l vs : List Nat) :
    setValues l 0 vs = vs ++ l.drop vs.length := by
  simp [setValues]

lemma setValues_take_set (l : List Nat) (i x : Nat) (h10 : 10 ≤ l.length)
    (hi : i < 10) : setValues l 0 ((l.take 10).set i x) = l.set i x := by
  have hlen : ((l.take 10).set i x).length = 10 := by
    simp [List.length_take]
    omega
  rw [setValues_zero, hlen, ← List.set_take, ← List.drop_set_of_lt x l hi,
    List.take_append_drop]

lemma toggle_ne (v : Nat) : toggle v ≠ v := by
  unfold toggle
  split <;> omega

lemma toggle_toggle (v : Nat) (h : v = 0 ∨ v = 1) : toggle (toggle v) = v := by
  rcases h with h | h <;> subst h <;> rfl

/-- Characterization of one coils-task cycle on a 50-cell bank: it is
exactly `List.set` of the toggled cell at index `n % 10`. -/
lemma coilsTaskStep_eq_set (n : Nat) (co : List Nat) (h : co.length = 50) :
    coilsTaskStep n co = co.set (n % 10) (toggle (co.getD (n % 10) 0)) := by
  have hidx : n % 10 < 10 := Nat.mod_lt n (by norm_num)
  have hrr : (getValues co 0 10).length = 10 := by
    simp [getValues, h]
  have hget : ∀ hh : n % 10 < (getValues co 0 10).length,
      (getValues co 0 10).get ⟨n % 10, hh⟩ = co.getD (n % 10) 0 := by
    intro hh
    have hco : n % 10 < co.length := by omega
    rw [List.getD_eq_getElem co 0 hco]
    simp [getValues_zero, List.getElem_take]
  unfold coilsTaskStep taskStep coilsCycleBodyE
  simp only []
  rw [dif_pos (show n % 10 < (getValues co 0 10).length by omega)]
  simp only [hget]
  rw [getValues_zero, setValues_take_set co (n % 10) _ (by omega) hidx]

lemma coilsTaskStep_length (n : Nat) (co : List Nat) (h : co.length = 50) :
    (coilsTaskStep n co).length = 50 := by
  rw [coilsTaskStep_eq_set n co h]
  simpa using h

lemma coilsRun_succ_right (n k : Nat) (s : List Nat) :
    coilsRun n (k + 1) s = coilsTaskStep (n + k) (coilsRun n k s) := by
  induction k generalizing n s with
  | zero => simp [coilsRun]
  | succ k ih =>
    show coilsRun (n + 1) (k + 1) (coilsTaskStep n s) = _
    rw [ih, show n + (k + 1) = n + 1 + k from by omega]
    rfl

/-- C3: at startup the datastore has exactly 50 cells per bank and, for
every `i < 50`: discrete input `i` is 0, coil `i` is 0, holding register
`i` holds `i`, input register `i` holds `1000 + i`. -/
theorem build_datastore_initial_values :
    build_datastore.di.length = 50 ∧ build_datastore.co.length = 50 ∧
    build_datastore.hr.length = 50 ∧ build_datastore.ir.length = 50 ∧
    ∀ i, i < 50 →
      build_datastore.di.getD i 0 = 0 ∧ build_datastore.co.getD i 0 = 0 ∧
      build_datastore.hr.getD i 0 = i ∧
      build_datastore.ir.getD i 0 = 1000 + i := by
  refine ⟨by decide, by decide, by decide, by decide, ?_⟩
  decide

/-- C7: the server is configured to listen on host `0.0.0.0` and port
5020, a non-privileged port ( > 1023 ). -/
theorem main_server_config :
    mainServerConfig.host = "0.0.0.0" ∧ mainServerConfig.port = 5020 ∧
    1023 < mainServerConfig.port := by
  refine ⟨rfl, rfl, by decide⟩

/-- C1: on a 50-cell coils bank, the cycle with toggle counter `n` changes
the coil at index `n % 10` and leaves every other coil unchanged; and the
`k`-th successive cycle of a run starting at counter `n` is the cycle with
counter `n + k`, so successive cycles flip indices in round-robin order
`n % 10, (n+1) % 10, ...`. -/
theorem coils_cycle_flips_exactly_one_round_robin (n : Nat) (co : List Nat)
    (h : co.length = 50) :
    (coilsTaskStep n co).length = 50 ∧
    (coilsTaskStep n co).getD (n % 10) 0 ≠ co.getD (n % 10) 0 ∧
    (∀ i, i < 50 → i ≠ n % 10 → (coilsTaskStep n co).getD i 0 = co.getD i 0) ∧
    (∀ (s : List Nat) (k : Nat),
      coilsRun n (k + 1) s = coilsTaskStep (n + k) (coilsRun n k s)) := by
  refine ⟨coilsTaskStep_length n co h, ?_, ?_, fun s k => coilsRun_succ_right n k s⟩
  · rw [coilsTaskStep_eq_set n co h,
      getD_set_self co (n % 10) _ 0 (by omega : n % 10 < co.length)]
    exact toggle_ne _
  · intro i hi hne
    rw [coilsTaskStep_eq_set n co h,
      getD_set_ne co (n % 10) i _ 0 (fun hh => hne hh.symm)]

/-- Witness for C1 at `n = 3` on the all-zero coils bank. -/
theorem coils_cycle_flips_exactly_one_round_robin_witness :
    (List.replicate 50 (0 : Nat)).length = 50 ∧
    (coilsTaskStep 3 (List.replicate 50 0)).getD 3 0 ≠
      (List.replicate 50 (0 : Nat)).getD 3 0 := by
  have h := coils_cycle_flips_exactly_one_round_robin 3 (List.replicate 50 0)
    (by decide)
  exact ⟨by decide, by simpa using h.2.1⟩

lemma coilsTaskStep_getD_iterate (n : Nat) (co : List Nat) (h : co.length = 50)
    (i : Nat) (hi : i < 50) :
    (coilsTaskStep n co).getD i 0 =
      toggle^[if n % 10 = i then 1 else 0] (co.getD i 0) := by
  rw [coilsTaskStep_eq_set n co h]
  by_cases hc : n % 10 = i
  · subst hc
    rw [if_pos rfl, getD_set_self co (n % 10) _ 0 (by omega)]
    rfl
  · rw [if_neg hc, getD_set_ne co (n % 10) i _ 0 hc]
    rfl

lemma hits_succ (n k i : Nat) :
    hits n (k + 1) i = hits (n + 1) k i + (if n % 10 = i then 1 else 0) := by
  unfold hits
  rw [List.range_succ_eq_map, List.countP_cons, List.countP_map]
  have hfun : ((fun j => (n + j) % 10 == i) ∘ (· + 1)) =
      (fun j => (n + 1 + j) % 10 == i) := by
    funext j
    simp only [Function.comp_apply]
    congr 2
    omega
  rw [hfun]
  congr 1
  simp [beq_iff_eq]

lemma coilsRun_length (n k : Nat) (co : List Nat) (h : co.length = 50) :
    (coilsRun n k co).length = 50 := by
  induction k generalizing n co with
  | zero => exact h
  | succ k ih => exact ih (n + 1) _ (coilsTaskStep_length n co h)

lemma coilsRun_getD (n k : Nat) (co : List Nat) (h : co.length = 50)
    (i : Nat) (hi : i < 50) :
    (coilsRun n k co).getD i 0 = toggle^[hits n k i] (co.getD i 0) := by
  induction k generalizing n co with
  | zero => rfl
  | succ k ih =>
    show (coilsRun (n + 1) k (coilsTaskStep n co)).getD i 0 = _
    rw [ih (n + 1) _ (coilsTaskStep_length n co h), hits_succ,
      Function.iterate_add_apply]
    congr 1
    exact coilsTaskStep_getD_iterate n co h i hi

lemma hits_mod (n k i : Nat) : hits n k i = hits (n % 10) k i := by
  unfold hits
  have hfun : (fun j => (n + j) % 10 == i) =
      (fun j => (n % 10 + j) % 10 == i) := by
    funext j
    congr 1
    omega
  rw [hfun]

lemma hits_twenty (n i : Nat) (hi : i < 10) : hits n 20 i = 2 := by
  rw [hits_mod]
  have h10 : n % 10 < 10 := Nat.mod_lt n (by norm_num)
  have key : ∀ r, r < 10 → ∀ j, j < 10 → hits r 20 j = 2 := by decide
  exact key (n % 10) h10 i hi

lemma hits_high (n k i : Nat) (hi : 10 ≤ i) : hits n k i = 0 := by
  unfold hits
  rw [List.countP_eq_zero]
  intro j hj
  simp only [beq_iff_eq]
  omega

/-- C9: the per-coil toggle is an involution on bit values, and any 20
consecutive exception-free cycles of the coils task, starting from any
toggle counter `n`, restore a 50-cell bank whose coils 0-9 hold bit
values exactly. -/
theorem coils_toggle_involution_twenty_cycles :
    (∀ v, v = 0 ∨ v = 1 → toggle (toggle v) = v) ∧
    ∀ n co, co.length = 50 →
      (∀ i, i < 10 → co.getD i 0 = 0 ∨ co.getD i 0 = 1) →
      coilsRun n 20 co = co := by
  refine ⟨toggle_toggle, ?_⟩
  intro n co h hbit
  have hlen : (coilsRun n 20 co).length = co.length := by
    rw [coilsRun_length n 20 co h, h]
  apply List.ext_getElem hlen
  intro i h1 h2
  have hi : i < 50 := by omega
  rw [← List.getD_eq_getElem (coilsRun n 20 co) 0 h1,
    ← List.getD_eq_getElem co 0 h2, coilsRun_getD n 20 co h i hi]
  by_cases hc : i < 10
  · rw [hits_twenty n i hc]
    exact toggle_toggle _ (hbit i hc)
  · rw [hits_high n 20 i (by omega)]
    rfl

/-- Characterization of one holding-registers-task cycle on a bank of at
least 10 cells: register 0 is replaced by its 16-bit-wrapped increment and
the write record covers exactly the block read at address 0. -/
lemma hrCycleW_eq (hr : List Nat) (h : 10 ≤ hr.length) :
    hrCycleW hr = (hr.set 0 ((hr.getD 0 0 + 1) &&& 0xFFFF),
      some (0, ((hr.getD 0 0 + 1) &&& 0xFFFF) ::
        (getValues hr 0 10).drop 1)) := by
  cases hr with
  | nil => simp at h
  | cons v t =>
    have ht : 9 ≤ t.length := by
      simp at h
      omega
    have htake : getValues (v :: t) 0 10 = v :: t.take 9 := by
      rw [getValues_zero]
      rfl
    have hlen : (((v + 1) &&& 0xFFFF) :: t.take 9).length = 10 := by
      simp [List.length_take]
      omega
    simp only [hrCycleW, htake, setValues_zero, hlen]
    simp [List.take_append_drop]

end ModbusServer

namespace ModbusServer

/-- C2: in any holding-registers cycle whose read of registers 0-9 returns
a non-empty sequence `v :: rest`, the value written back to register 0 is
`(v + 1) & 0xFFFF`, which equals `(v + 1) mod 2^16`; in particular the new
value of register 0 after the cycle is `(v + 1) mod 65536`. -/
theorem hr_cycle_wrapping_increment (hr : List Nat) (v : Nat)
    (rest : List Nat) (h : getValues hr 0 10 = v :: rest) :
    (hrCycleW hr).2 = some (0, ((v + 1) &&& 0xFFFF) :: rest) ∧
    (v + 1) &&& 0xFFFF = (v + 1) % 65536 ∧
    (hrCycleW hr).1.getD 0 0 = (v + 1) % 65536 := by
  have hmask : (v + 1) &&& 0xFFFF = (v + 1) % 65536 := by
    have hx := Nat.and_pow_two_sub_one_eq_mod (v + 1) 16
    norm_num at hx
    exact hx
  refine ⟨by simp only [hrCycleW, h], hmask, ?_⟩
  simp only [hrCycleW, h, setValues_zero]
  simp [hmask]

/-- Witness for C2: a register holding `0xFFFF` wraps to 0. -/
theorem hr_cycle_wrapping_increment_witness :
    getValues (65535 :: List.replicate 49 0) 0 10 =
      65535 :: List.replicate 9 0 ∧
    (hrCycleW (65535 :: List.replicate 49 0)).1.getD 0 0 = 0 := by
  have hread : getValues (65535 :: List.replicate 49 0) 0 10 =
      65535 :: List.replicate 9 0 := by decide
  have h := hr_cycle_wrapping_increment (65535 :: List.replicate 49 0) 65535
    (List.replicate 9 0) hread
  refine ⟨hread, ?_⟩
  rw [h.2.2]

/-- C8: a holding-registers cycle on a 50-cell bank leaves registers 1-49
with their prior values, and its single write targets address 0 with a
10-value block whose elements 1-9 are exactly the values just read. -/
theorem hr_cycle_frame_effect (hr : List Nat) (h : hr.length = 50) :
    (hrCycleW hr).1.length = 50 ∧
    (∀ i, 1 ≤ i → i < 50 → (hrCycleW hr).1.getD i 0 = hr.getD i 0) ∧
    (∀ a vs, (hrCycleW hr).2 = some (a, vs) →
      a = 0 ∧ vs.length = 10 ∧ vs.drop 1 = (getValues hr 0 10).drop 1) := by
  have h10 : 10 ≤ hr.length := by omega
  refine ⟨?_, ?_, ?_⟩
  · rw [hrCycleW_eq hr h10]
    simpa using h
  · intro i h1 h2
    rw [hrCycleW_eq hr h10]
    exact getD_set_ne hr 0 i _ 0 (by omega)
  · intro a vs hvs
    rw [hrCycleW_eq hr h10] at hvs
    simp only [Option.some.injEq, Prod.mk.injEq] at hvs
    obtain ⟨ha, hv⟩ := hvs
    subst ha
    subst hv
    refine ⟨rfl, ?_, by simp⟩
    simp [getValues_zero, List.length_take]
    omega

/-- Witness for C8 on the initial holding-register bank. -/
theorem hr_cycle_frame_effect_witness :
    (List.range 50).length = 50 ∧
    (hrCycleW (List.range 50)).1.getD 7 0 = (List.range 50).getD 7 0 := by
  have h := hr_cycle_frame_effect (List.range 50) (by decide)
  exact ⟨by decide, h.2.1 7 (by decide) (by decide)⟩

/-- C10: a holding-registers cycle whose read of registers 0-9 returns the
empty sequence performs no write and leaves the bank unchanged (the guarded
access to element 0 of the read result is never reached). -/
theorem hr_empty_read_skips_write (hr : List Nat)
    (h : getValues hr 0 10 = []) : hrCycleW hr = (hr, none) := by
  simp only [hrCycleW, h]

/-- Witness for C10 on the empty bank. -/
theorem hr_empty_read_skips_write_witness :
    getValues ([] : List Nat) 0 10 = [] ∧ hrCycleW [] = ([], none) :=
  ⟨rfl, hr_empty_read_skips_write [] rfl⟩

/-- C4: the `try/except` wrapper of each task loop catches any exception
raised by a cycle body, leaving the task state unchanged (the handler only
logs), and the loop still proceeds to its next scheduled cycle; in
particular this holds for an erroring coils cycle. -/
theorem task_exception_caught_loop_continues :
    (∀ (σ ε : Type) (body : σ → Except ε σ) (s : σ) (e : ε),
      body s = .error e → taskStep body s = s) ∧
    (∀ n co e, coilsCycleBodyE n co = .error e →
      coilsTaskStep n co = co ∧
      ∀ k, coilsRun n (k + 1) co = coilsRun (n + 1) k co) := by
  have hstep : ∀ (σ ε : Type) (body : σ → Except ε σ) (s : σ) (e : ε),
      body s = .error e → taskStep body s = s := by
    intro σ ε body s e h
    unfold taskStep
    rw [h]
  refine ⟨hstep, ?_⟩
  intro n co e h
  have hc : coilsTaskStep n co = co := hstep _ _ (coilsCycleBodyE n) co e h
  refine ⟨hc, fun k => ?_⟩
  show coilsRun (n + 1) k (coilsTaskStep n co) = _
  rw [hc]

/-- Witness for C4: on an empty coils bank the cycle body raises
(`IndexError` from `new_coils[idx]`), the state is preserved and the next
cycle still runs. -/
theorem task_exception_caught_loop_continues_witness :
    coilsCycleBodyE 0 [] = Except.error "IndexError" ∧
    coilsTaskStep 0 [] = [] ∧ coilsRun 0 1 [] = [] := by
  have h : coilsCycleBodyE 0 [] = Except.error "IndexError" := rfl
  have h2 := task_exception_caught_loop_continues.2 0 [] "IndexError" h
  exact ⟨h, h2.1, (h2.2 0).trans rfl⟩

/-- C5: in any interleaving of atomic write-range and read-range
operations on one bank (each write covering the full 10-cell range, as the
mutator tasks do), every read result is either the initial range content
or the complete value list of a single write in the trace — never a mix of
two writes. -/
theorem store_reads_never_mix_writes (init : List Nat) (ops : List StoreOp)
    (hw : ∀ vs, StoreOp.write vs ∈ ops → vs.length = 10) :
    ∀ r ∈ (runTrace init ops).2,
      r = getValues init 0 10 ∨ ∃ vs, StoreOp.write vs ∈ ops ∧ r = vs := by
  induction ops generalizing init with
  | nil =>
    intro r hr
    simp [runTrace] at hr
  | cons op rest ih =>
    cases op with
    | write vs =>
      intro r hr
      have hvs : vs.length = 10 := hw vs (List.mem_cons_self _ _)
      have hslice : getValues (setValues init 0 vs) 0 10 = vs := by
        rw [setValues_zero, getValues_zero, ← hvs]
        exact List.take_left vs _
      have hw2 : ∀ ws, StoreOp.write ws ∈ rest → ws.length = 10 :=
        fun ws hws => hw ws (List.mem_cons_of_mem _ hws)
      have hr2 : r ∈ (runTrace (setValues init 0 vs) rest).2 := by
        simpa [runTrace] using hr
      rcases ih (setValues init 0 vs) hw2 r hr2 with he | ⟨ws, hmem, hrw⟩
      · exact Or.inr ⟨vs, List.mem_cons_self _ _, he.trans hslice⟩
      · exact Or.inr ⟨ws, List.mem_cons_of_mem _ hmem, hrw⟩
    | read =>
      intro r hr
      have hsplit : r = getValues init 0 10 ∨ r ∈ (runTrace init rest).2 := by
        simpa [runTrace] using hr
      rcases hsplit with he | hmem
      · exact Or.inl he
      · rcases ih init (fun ws hws => hw ws (List.mem_cons_of_mem _ hws)) r
          hmem with he | ⟨ws, hm, hrw⟩
        · exact Or.inl he
        · exact Or.inr ⟨ws, List.mem_cons_of_mem _ hm, hrw⟩

/-- Witness for C5: a trace with one full-range write followed by a read
on the all-zero bank. -/
theorem store_reads_never_mix_writes_witness :
    List.replicate 10 (1 : Nat) = getValues (List.replicate 50 0) 0 10 ∨
    ∃ vs, StoreOp.write vs ∈
        [StoreOp.write (List.replicate 10 1), StoreOp.read] ∧
      List.replicate 10 (1 : Nat) = vs := by
  have hw : ∀ vs, StoreOp.write vs ∈
      [StoreOp.write (List.replicate 10 (1 : Nat)), StoreOp.read] →
      vs.length = 10 := by
    intro vs hvs
    simp at hvs
    subst hvs
    decide
  have hmem : List.replicate 10 (1 : Nat) ∈
      (runTrace (List.replicate 50 0)
        [StoreOp.write (List.replicate 10 1), StoreOp.read]).2 := by decide
  exact store_reads_never_mix_writes (List.replicate 50 0)
    [StoreOp.write (List.replicate 10 1), StoreOp.read] hw
    (List.replicate 10 1) hmem

/-- Witness for C9 at `n = 7` on the all-zero coils bank. -/
theorem coils_toggle_involution_twenty_cycles_witness :
    toggle (toggle 1) = 1 ∧
    coilsRun 7 20 (List.replicate 50 0) = List.replicate 50 0 :=
  ⟨coils_toggle_involution_twenty_cycles.1 1 (Or.inr rfl),
    coils_toggle_involution_twenty_cycles.2 7 (List.replicate 50 0)
      (by decide) (by decide)⟩

end ModbusServer
